import Mathlib

/-!
Verification of the pylytics repository: a shallow embedding of the
adaptive batch loader (`pylytics/library/connection.py`) and of the
declarative table model (`pylytics/declarative/table.py`), with theorems
settling the specification claims about them.
-/

namespace Pylytics

/-! ## Python primitives used by `connection.py` -/

/-- ASCII digit test, as used by Python `int()` on decimal strings. -/
def pyIsDigit (c : Char) : Bool :=
  48 ≤ c.toNat && c.toNat ≤ 57

/-- Numeric value of a decimal digit string. -/
def digitsVal (cs : List Char) : Nat :=
  cs.foldl (fun acc c => acc * 10 + (c.toNat - 48)) 0

/-- Parse a non-empty all-digit character list, else fail. -/
def pyDigits (cs : List Char) : Option Nat :=
  if !cs.isEmpty && cs.all pyIsDigit then some (digitsVal cs) else none

/-- Embedding of Python `int(s)` on a decimal string: optional sign
followed by a non-empty digit run; anything else raises ValueError,
modelled as `none`. -/
def pyInt (cs : List Char) : Option Int :=
  match cs with
  | [] => none
  | c :: rest =>
    if c = '-' then (pyDigits rest).map (fun n => -(Int.ofNat n))
    else if c = '+' then (pyDigits rest).map (fun n => Int.ofNat n)
    else (pyDigits (c :: rest)).map (fun n => Int.ofNat n)

/-- Embedding of Python `str.upper` on one ASCII character. -/
def pyUpperChar (c : Char) : Char :=
  if 97 ≤ c.toNat && c.toNat ≤ 122 then Char.ofNat (c.toNat - 32) else c

/-- Embedding of Python `str.upper` (ASCII). -/
def pyUpper (cs : List Char) : List Char :=
  cs.map pyUpperChar

/-- The `unit_prefix` dictionary of `DB.insert_many`:
K maps to 3, M to 6, G to 9. -/
def unitExp (c : Char) : Nat :=
  if c = 'K' then 3 else if c = 'M' then 6 else if c = 'G' then 9 else 0

/-- Embedding of the client `max_allowed_packet` string parsing in
`DB.insert_many` (connection.py lines 191-204): upper-case the string;
if it ends with K, M or G, parse the front as an int and scale by the
base-1000 power from `unit_prefix`; otherwise parse the whole string
as an int. -/
def parseClientPacketChars (cs : List Char) : Option Int :=
  match (pyUpper cs).getLast? with
  | some c =>
    if c = 'K' ∨ c = 'M' ∨ c = 'G' then
      (pyInt (pyUpper cs).dropLast).map (fun b => b * ((10 : Int) ^ unitExp c))
    else pyInt (pyUpper cs)
  | none => pyInt (pyUpper cs)

/-- String-level wrapper for `parseClientPacketChars`. -/
def parseClientPacket (s : String) : Option Int :=
  parseClientPacketChars s.data

/-- Embedding of `dict(pairs)[key]` lookup for a list of key/value rows:
later pairs override earlier ones. -/
def pyDictGet (pairs : List (String × String)) (key : String) : Option String :=
  (pairs.reverse.find? (fun p => p.1 == key)).map Prod.snd

/-! ## The batch loader `DB.insert_many` -/

/-- The ways `DB.insert_many` can raise before or while partitioning. -/
inductive PyError where
  /-- raise Exception: unable to retrieve max_allowed_packet from server -/
  | serverPacketUnavailable
  /-- ValueError from int() on the server variable value -/
  | serverPacketNotInt
  /-- raise Exception: CLIENT_CONFIG_FILE is missing from settings.py -/
  | clientConfigFileMissing
  /-- ConfigParser.get raised (missing file, section or option) -/
  | clientConfigUnreadable
  /-- ValueError from int() on the client packet string -/
  | clientPacketNotInt
  /-- ZeroDivisionError in the packet arithmetic -/
  | zeroDivision
  /-- ValueError: xrange() arg 3 must not be zero -/
  | xrangeZeroStep
  deriving DecidableEq

/-- The environment `DB.insert_many` reads from its collaborators:
the rows returned by the SHOW VARIABLES LIKE max_allowed_packet query,
whether `settings` has the `CLIENT_CONFIG_FILE` attribute, the value
that `ConfigParser.get` yields for the mysqld max_allowed_packet option
(`none` when the read raises), the length `_get_packet_size` reports for
the fully rendered statement, and the outcome oracles of `DB.execute`:
`batchOk b` tells whether the multi-row insert of batch `b` succeeds,
`rowError v` gives the exception raised by the single-row insert of
`v`, if any. -/
structure InsertEnv (α ε : Type) where
  serverVariablesRaw : List (String × String)
  hasClientConfigFile : Bool
  clientConfigValue : Option String
  packetSize : Nat
  batchOk : List α → Bool
  rowError : α → Option ε

/-- Embedding of the configuration phase of `DB.insert_many`
(connection.py lines 166-207): read and int-parse the server limit,
require `CLIENT_CONFIG_FILE`, read and unit-parse the client limit,
and return `min(client, server)`. -/
def maxAllowedPacket {α ε : Type} (env : InsertEnv α ε) : Except PyError Int :=
  match pyDictGet env.serverVariablesRaw "max_allowed_packet" with
  | none => .error .serverPacketUnavailable
  | some v =>
    match pyInt v.data with
    | none => .error .serverPacketNotInt
    | some serverMax =>
      if env.hasClientConfigFile then
        match env.clientConfigValue with
        | none => .error .clientConfigUnreadable
        | some raw =>
          match parseClientPacketChars raw.data with
          | none => .error .clientPacketNotInt
          | some clientMax => .ok (min clientMax serverMax)
      else .error .clientConfigFileMissing

/-- Embedding of connection.py lines 216-219: floor-divide the packet
size by the limit and add one when the division leaves a remainder.
`Int.fdiv` and `Int.fmod` mirror Python floor division and modulo. -/
def packetIterations (packetSize maxPacket : Int) : Int :=
  let q := packetSize.fdiv maxPacket
  if packetSize.fmod maxPacket ≠ 0 then q + 1 else q

/-- Embedding of connection.py line 221:
`batch_size = len(values) / (packet_iterations + 1)`. -/
def computedBatchSize (totalRows : Nat) (packetSize maxPacket : Int) : Int :=
  (totalRows : Int).fdiv (packetIterations packetSize maxPacket + 1)

/-- Length of Python `xrange(0, stop, step)` for a non-zero step. -/
def pyRangeLen (stop : Nat) (step : Int) : Nat :=
  if 0 < step then (stop + step.toNat - 1) / step.toNat else 0

/-- Embedding of the list comprehension on connection.py lines 224-225:
`[values[x: x + batch_size] for x in xrange(0, len(values), batch_size)]`. -/
def pySlices {α : Type} (values : List α) (step : Int) : List (List α) :=
  (List.range (pyRangeLen values.length step)).map
    (fun i => (values.drop (i * step.toNat)).take step.toNat)

/-- Embedding of `DB._step_through_batch` (connection.py lines 120-132):
insert each row one by one, recording the raised exceptions in order. -/
def stepThroughBatch {α ε : Type} (rowError : α → Option ε) : List α → List ε
  | [] => []
  | v :: rest =>
    match rowError v with
    | some e => e :: stepThroughBatch rowError rest
    | none => stepThroughBatch rowError rest

/-- Embedding of the batch loop of `DB.insert_many` (connection.py lines
226-231): for each batch, try the multi-row insert; on failure append
the list of row-level errors collected by `_step_through_batch`. -/
def runBatches {α ε : Type} (env : InsertEnv α ε) (values : List α)
    (batchSize : Int) : List (List ε) :=
  (pySlices values batchSize).foldl
    (fun errors batch =>
      if env.batchOk batch = true then errors
      else errors ++ [stepThroughBatch env.rowError batch])
    []

/-- Embedding of `DB.insert_many` (connection.py lines 153-233).
Python raising is modelled by `Except.error`; the division guards
mirror ZeroDivisionError and the `xrange` step-zero ValueError. -/
def insert_many {α ε : Type} (env : InsertEnv α ε) (values : List α) :
    Except PyError (List (List ε)) :=
  match maxAllowedPacket env with
  | .error e => .error e
  | .ok maxPacket =>
    if maxPacket = 0 then .error .zeroDivision
    else if packetIterations env.packetSize maxPacket + 1 = 0 then .error .zeroDivision
    else
      let batchSize := computedBatchSize values.length env.packetSize maxPacket
      if batchSize = 0 then .error .xrangeZeroStep
      else .ok (runBatches env values batchSize)

/-! ## The declarative table model (`pylytics/declarative/table.py`) -/

/-- Modelled from the spec: the `Column` class itself is not under src/,
only its users in table.py are. Per the spec data model a column carries
a name, a SQL expression and flags; the `isAuto` flag models
`isinstance(column, AutoColumn)`, the auto-generated marker used by
`Table.insert`. -/
structure Column where
  name : String
  expression : String
  isAuto : Bool
  deriving DecidableEq

/-- One event produced while iterating `__source__.select(cls, since)`:
either a yielded row or an exception raised mid-iteration. -/
inductive SourceEvent (ρ ε : Type) where
  | row (r : ρ)
  | raiseErr (e : ε)
  deriving DecidableEq

/-- Whether a source event is a plain yielded row. -/
def SourceEvent.isRow {ρ ε : Type} : SourceEvent ρ ε → Bool
  | .row _ => true
  | .raiseErr _ => false

/-- The row carried by a source event, if any. -/
def SourceEvent.rowOf {ρ ε : Type} : SourceEvent ρ ε → Option ρ
  | .row r => some r
  | .raiseErr _ => none

/-- Observable actions of one full consumption of the `Table.fetch`
generator: a row yielded to the caller, the `finish` hook invoked on the
source, an exception re-raised to the caller, or the
NotImplementedError raised when no source is configured. -/
inductive FetchAction (ρ ε : Type) where
  | yield (r : ρ)
  | callFinish
  | raiseExc (e : ε)
  | raiseNotImplemented
  deriving DecidableEq

namespace Table

/-- The body of the try/except/else in `Table.fetch` (table.py lines
109-119): yield each row; on an exception, log and re-raise without
calling `finish`; once iteration ends cleanly, call
`__source__.finish(cls)`. -/
def fetchLoop {ρ ε : Type} : List (SourceEvent ρ ε) → List (FetchAction ρ ε)
  | [] => [.callFinish]
  | .row r :: rest => .yield r :: fetchLoop rest
  | .raiseErr e :: _ => [.raiseExc e]

/-- Embedding of `Table.fetch` (table.py lines 104-121), as the action
trace of one full consumption of the generator. `none` models a class
with no `__source__` configured. -/
def fetch {ρ ε : Type} (source : Option (List (SourceEvent ρ ε))) :
    List (FetchAction ρ ε) :=
  match source with
  | some events => fetchLoop events
  | none => [.raiseNotImplemented]

/-- The pieces of the INSERT statement `Table.insert` renders, in
order: the escaped table name, the escaped column-name list, and one
rendered value tuple per instance. -/
structure InsertStatement where
  table : String
  columns : List String
  rows : List (List String)
  deriving DecidableEq

/-- Embedding of `Table.insert` (table.py lines 123-141). `esc` models
the `escaped` identifier quoting helper and `dump` the value literal
renderer, both collaborators not under src/; an instance is modelled by
the column-name-to-value mapping that `instance[column.name]` reads.
`none` models the zero-record case, in which `Warehouse.execute` is
never invoked. -/
def insert {V : Type} (tablename : String) (cols : List Column)
    (esc : String → String) (dump : V → String)
    (instances : List (String → V)) : Option InsertStatement :=
  match instances with
  | [] => none
  | _ :: _ =>
    let columns := cols.filter (fun c => !c.isAuto)
    some { table := esc tablename
           columns := columns.map (fun c => esc c.name)
           rows := instances.map (fun inst => columns.map (fun c => dump (inst c.name))) }

end Table

/-! ## Schema resolution (`TableMetaclass.__new__`) -/

/-- Modelled from the spec: `_ColumnSet` is not under src/, only its
caller `TableMetaclass.__new__` is. Per the spec, a column set is an
ordered mapping from name to Column and one update step inserts a new
name at the end while overwriting an existing name in place, without
reordering. `updateOne` applies a single name/column declaration. -/
def updateOne (cs : List (String × Column)) (kv : String × Column) :
    List (String × Column) :=
  if cs.any (fun p => p.1 == kv.1) then
    cs.map (fun p => if p.1 == kv.1 then (p.1, kv.2) else p)
  else cs ++ [kv]

/-- Modelled from the spec: `_ColumnSet.update` applies an ordered run
of declarations, one `updateOne` step each. -/
def updateMany (cs : List (String × Column))
    (decls : List (String × Column)) : List (String × Column) :=
  decls.foldl updateOne cs

/-- Embedding of the merge in `TableMetaclass.__new__` (table.py lines
10-13): fold the base classes column declarations first-to-last into an
empty column set, then apply the own declarations of the class last. -/
def resolveColumns (bases : List (List (String × Column)))
    (own : List (String × Column)) : List (String × Column) :=
  updateMany (bases.foldl updateMany []) own

/-! ## Record access (`Table.__getitem__`) -/

/-- What `getattr(self.__class__, key, None)` can return for an
attribute key: a `Column` object, some other attribute, or nothing. -/
inductive PyClassAttr where
  | column (c : Column)
  | other
  deriving DecidableEq

/-- A Table instance as `Table.__getitem__` sees it: the attribute keys
`dir(self)` reports (in order), the class attribute each key resolves
to, and the value assigned on the instance itself, if any. -/
structure InstanceModel (V : Type) where
  attrKeys : List String
  classAttr : String → Option PyClassAttr
  assigned : String → Option V

/-- Embedding of `key.startswith` on the underscore string: whether the
first character of the key is an underscore. -/
def startsWithUnderscore (key : String) : Bool :=
  match key.data with
  | c :: _ => c == '_'
  | [] => false

/-- Whether an attribute key makes `Table.__getitem__` stop: it is not
underscore-prefixed and resolves to a `Column` whose name is the one
requested. -/
def keyMatches {V : Type} (self : InstanceModel V) (columnName key : String) : Bool :=
  !startsWithUnderscore key &&
    match self.classAttr key with
    | some (.column c) => c.name == columnName
    | _ => false

/-- The scan loop of `Table.__getitem__` (table.py lines 156-162):
walk the attribute keys; at the first key that is not underscore-prefixed
and holds a `Column` named `columnName` (`keyMatches`), return the
instance value when one was assigned, and Python None (here
`Except.ok none`) when `getattr` falls back to the Column object on the
class — which is exactly `self.assigned key`; raise KeyError when no key
matches. -/
def getitemLoop {V : Type} (self : InstanceModel V) (columnName : String) :
    List String → Except Unit (Option V)
  | [] => .error ()
  | key :: rest =>
    if keyMatches self columnName key then .ok (self.assigned key)
    else getitemLoop self columnName rest

/-- Embedding of `Table.__getitem__` (table.py lines 153-162). -/
def getitem {V : Type} (self : InstanceModel V) (columnName : String) :
    Except Unit (Option V) :=
  getitemLoop self columnName self.attrKeys

/-! ## Reference shapes and concrete environments used by the proofs -/

/-- Consecutive chunks of size `b` over a list, the final chunk possibly
shorter; the recursive reference shape of the xrange-based slicing. -/
def chunk {α : Type} (b : Nat) : List α → List (List α)
  | [] => []
  | x :: xs => ((x :: xs).take b) :: chunk b (xs.drop (b - 1))
termination_by l => l.length
decreasing_by simp; omega

/-- Map-in-place replacement of every entry with key `k` by value `v`;
the in-place branch of `updateOne`. -/
def replaceKey (cs : List (String × Column)) (k : String) (v : Column) :
    List (String × Column) :=
  cs.map (fun p => if p.1 == k then (p.1, v) else p)

/-- Whether a column set already holds an entry for key `k`. -/
def hasKey (cs : List (String × Column)) (k : String) : Bool :=
  cs.any (fun p => p.1 == k)

/-- Every entry of `cs` at key `k` carries value `v`. -/
def allAt (cs : List (String × Column)) (k : String) (v : Column) : Prop :=
  ∀ p ∈ cs, p.1 = k → p.2 = v

/-- A loader environment with healthy limits of 1000 bytes and a small
50-byte statement: one single row then makes the candidate batch size
collapse to zero. -/
def envC1 : InsertEnv Nat Nat :=
  { serverVariablesRaw := [("max_allowed_packet", "1000")]
    hasClientConfigFile := true
    clientConfigValue := some "1000"
    packetSize := 50
    batchOk := fun _ => true
    rowError := fun _ => none }

/-- A loader environment whose statement size equals the 1000-byte limit,
so four rows split into two batches of two; the first batch fails as a
whole and both of its rows fail individually with errors 101 and 102. -/
def envC2 : InsertEnv Nat Nat :=
  { serverVariablesRaw := [("max_allowed_packet", "1000")]
    hasClientConfigFile := true
    clientConfigValue := some "1000"
    packetSize := 1000
    batchOk := fun b => !(b == [1, 2])
    rowError := fun v => if v == 1 then some 101 else if v == 2 then some 102 else none }

/-- A loader environment with healthy limits, used on the empty row
sequence. -/
def envC4 : InsertEnv Nat Nat :=
  { serverVariablesRaw := [("max_allowed_packet", "1000")]
    hasClientConfigFile := true
    clientConfigValue := some "1000"
    packetSize := 60
    batchOk := fun _ => true
    rowError := fun _ => none }

/-- A loader environment with both limits equal to 1000 bytes and a
1000-byte statement: four rows yield a batch size of two. -/
def envC3w : InsertEnv Nat Nat :=
  { serverVariablesRaw := [("max_allowed_packet", "1000")]
    hasClientConfigFile := true
    clientConfigValue := some "1000"
    packetSize := 1000
    batchOk := fun _ => true
    rowError := fun _ => none }

/-- A loader environment with server limit 2000 and client limit 1M. -/
def envC5w : InsertEnv Nat Nat :=
  { serverVariablesRaw := [("max_allowed_packet", "2000")]
    hasClientConfigFile := true
    clientConfigValue := some "1M"
    packetSize := 10
    batchOk := fun _ => true
    rowError := fun _ => none }

/-- A two-column schema: an auto-generated id and a plain text column. -/
def colsC8w : List Column :=
  [{ name := "id", expression := "INT", isAuto := true },
   { name := "ring", expression := "TEXT", isAuto := false }]

/-- A record instance model with one public column attribute named ring
and nothing assigned on the instance. -/
def selfC10w : InstanceModel Nat :=
  { attrKeys := ["_private", "ring"]
    classAttr := fun key =>
      if key == "ring" then some (.column { name := "ring", expression := "TEXT", isAuto := false })
      else none
    assigned := fun _ => none }

/-- A plain integer column named a. -/
def colA : Column := { name := "a", expression := "INT", isAuto := false }

/-- A text column named b. -/
def colB : Column := { name := "b", expression := "TEXT", isAuto := false }

/-- A re-declaration of the column named b with a different type. -/
def colB2 : Column := { name := "b", expression := "VARCHAR(10)", isAuto := false }

/-- The statement `Table.insert` renders for one record over `colsC8w`
with identity escaping and a constant value renderer. -/
def stmtC8w : Table.InsertStatement :=
  { table := "t", columns := ["ring"], rows := [["v"]] }

/-! ## Arithmetic lemmas -/

theorem ceil_div_eq (a : Nat) {b : Nat} (hb : 0 < b) :
    (if a % b ≠ 0 then a / b + 1 else a / b) = (a + b - 1) / b := by
  obtain ⟨q, r, hr, ha⟩ : ∃ q r, r < b ∧ a = b * q + r :=
    ⟨a / b, a % b, Nat.mod_lt a hb, (Nat.div_add_mod a b).symm⟩
  subst ha
  have h1 : (b * q + r) / b = q := by
    rw [Nat.add_comm, Nat.add_mul_div_left _ _ hb, Nat.div_eq_of_lt hr, Nat.zero_add]
  have h2 : (b * q + r) % b = r := by
    rw [Nat.add_comm, Nat.add_mul_mod_self_left, Nat.mod_eq_of_lt hr]
  by_cases h : r = 0
  · rw [if_neg (by rw [h2, h]; simp), h1, h]
    have h3 : b * q + 0 + b - 1 = (b - 1) + b * q := by omega
    rw [h3, Nat.add_mul_div_left _ _ hb, Nat.div_eq_of_lt (by omega), Nat.zero_add]
  · rw [if_pos (by rw [h2]; exact h), h1]
    have hs : b * (q + 1) = b * q + b := by ring
    have h3 : b * q + r + b - 1 = (r - 1) + b * (q + 1) := by omega
    rw [h3, Nat.add_mul_div_left _ _ hb, Nat.div_eq_of_lt (by omega), Nat.zero_add]

theorem fdiv_natCast (a b : Nat) : ((a : Int)).fdiv (b : Int) = ((a / b : Nat) : Int) :=
  (Int.ofNat_fdiv a b).symm

theorem fmod_natCast (a b : Nat) : ((a : Int)).fmod (b : Int) = ((a % b : Nat) : Int) := by
  rw [Int.fmod_eq_emod _ (by omega)]
  omega

theorem packetIterations_natCast (ps mn : Nat) :
    packetIterations (ps : Int) (mn : Int)
      = ((if ps % mn ≠ 0 then ps / mn + 1 else ps / mn : Nat) : Int) := by
  unfold packetIterations
  rw [fdiv_natCast, fmod_natCast]
  by_cases h : ps % mn = 0
  · rw [if_neg (by simp [h]), if_neg (by simp [h])]
  · rw [if_pos (by exact_mod_cast h), if_pos h]
    push_cast
    ring

theorem packetIterations_eq_ceil (ps mn : Nat) (h : 0 < mn) :
    packetIterations (ps : Int) (mn : Int) = (((ps + mn - 1) / mn : Nat) : Int) := by
  rw [packetIterations_natCast, ceil_div_eq ps h]

theorem computedBatchSize_natCast (n ps mn : Nat) (h : 0 < mn) :
    computedBatchSize n (ps : Int) (mn : Int)
      = ((n / ((ps + mn - 1) / mn + 1) : Nat) : Int) := by
  unfold computedBatchSize
  rw [packetIterations_eq_ceil ps mn h]
  rw [show (((((ps + mn - 1) / mn : Nat)) : Int) + 1) = (((ps + mn - 1) / mn + 1 : Nat) : Int) by push_cast; ring]
  exact fdiv_natCast n _

/-! ## Chunking lemmas -/

theorem chunk_cons {α : Type} {b : Nat} (hb : 0 < b) (x : α) (xs : List α) :
    chunk b (x :: xs) = (x :: xs).take b :: chunk b ((x :: xs).drop b) := by
  rw [chunk]
  congr 1
  congr 1
  cases b with
  | zero => omega
  | succ n => simp

theorem chunk_flatten {α : Type} {b : Nat} (hb : 0 < b) :
    ∀ (n : Nat) (l : List α), l.length ≤ n → (chunk b l).flatten = l := by
  intro n
  induction n with
  | zero =>
    intro l hl
    have : l = [] := by cases l <;> simp_all
    simp [this, chunk]
  | succ n ih =>
    intro l hl
    cases l with
    | nil => simp [chunk]
    | cons x xs =>
      rw [chunk_cons hb, List.flatten_cons, ih _ (by simp at hl ⊢; omega),
        List.take_append_drop]

theorem chunk_mem_length {α : Type} {b : Nat} (hb : 0 < b) :
    ∀ (n : Nat) (l : List α), l.length ≤ n →
      ∀ c ∈ chunk b l, 0 < c.length ∧ c.length ≤ b := by
  intro n
  induction n with
  | zero =>
    intro l hl c hc
    have : l = [] := by cases l <;> simp_all
    simp [this, chunk] at hc
  | succ n ih =>
    intro l hl c hc
    cases l with
    | nil => simp [chunk] at hc
    | cons x xs =>
      rw [chunk_cons hb] at hc
      rcases List.mem_cons.mp hc with h | h
      · subst h
        constructor
        · simp [List.length_take]
          omega
        · simp [List.length_take]
      · exact ih _ (by simp at hl ⊢; omega) c h

theorem chunk_dropLast_length {α : Type} {b : Nat} (hb : 0 < b) :
    ∀ (n : Nat) (l : List α), l.length ≤ n →
      ∀ c ∈ (chunk b l).dropLast, c.length = b := by
  intro n
  induction n with
  | zero =>
    intro l hl c hc
    have : l = [] := by cases l <;> simp_all
    simp [this, chunk] at hc
  | succ n ih =>
    intro l hl c hc
    cases l with
    | nil => simp [chunk] at hc
    | cons x xs =>
      rw [chunk_cons hb] at hc
      by_cases hrest : (x :: xs).drop b = []
      · rw [hrest] at hc
        simp [chunk] at hc
      · have hlen : b < (x :: xs).length := by
          by_contra hcon
          exact hrest (List.drop_eq_nil_of_le (by omega))
        have : chunk b ((x :: xs).drop b) ≠ [] := by
          cases hd : (x :: xs).drop b with
          | nil => exact absurd hd hrest
          | cons y ys => rw [chunk_cons hb]; simp
        cases hck : chunk b ((x :: xs).drop b) with
        | nil => exact absurd hck this
        | cons d ds =>
          rw [hck] at hc
          rw [show (x :: xs).take b :: d :: ds = [(x :: xs).take b] ++ d :: ds by simp,
            List.dropLast_append_of_ne_nil _ (by simp)] at hc
          rcases List.mem_append.mp hc with h | h
          · simp at h
            subst h
            rw [List.length_take]
            simp only [List.length_cons] at hlen ⊢
            omega
          · rw [← hck] at h
            refine ih _ ?_ c h
            rw [List.length_drop]
            simp at hl hlen ⊢
            omega

/-! ## Slicing lemmas -/

theorem pySlices_nonpos {α : Type} (values : List α) (step : Int) (h : ¬ 0 < step) :
    pySlices values step = [] := by
  simp [pySlices, pyRangeLen, h]

theorem pySlices_eq_chunk {α : Type} {step : Int} (h : 0 < step) :
    ∀ (n : Nat) (values : List α), values.length ≤ n →
      pySlices values step = chunk step.toNat values := by
  have hb : 0 < step.toNat := by omega
  intro n
  induction n with
  | zero =>
    intro values hv
    have hnil : values = [] := by cases values <;> simp_all
    subst hnil
    simp [pySlices, pyRangeLen, chunk, if_pos h,
      Nat.div_eq_of_lt (show step.toNat - 1 < step.toNat by omega)]
  | succ n ih =>
    intro values hv
    cases values with
    | nil =>
      simp [pySlices, pyRangeLen, chunk, if_pos h,
        Nat.div_eq_of_lt (show step.toNat - 1 < step.toNat by omega)]
    | cons x xs =>
      by_cases hle : (x :: xs).length ≤ step.toNat
      · have hr : pyRangeLen (x :: xs).length step = 1 := by
          unfold pyRangeLen
          rw [if_pos h]
          refine Nat.div_eq_of_lt_le ?_ ?_
          · simp only [List.length_cons, Nat.one_mul]
            omega
          · simp only [List.length_cons] at hle ⊢
            omega
        unfold pySlices
        rw [hr]
        rw [show List.range 1 = [0] from rfl, List.map_cons, List.map_nil, Nat.zero_mul,
          List.drop_zero]
        rw [chunk_cons hb, List.drop_eq_nil_of_le hle, chunk]
      · have hgt : step.toNat < (x :: xs).length := by omega
        have hr : pyRangeLen (x :: xs).length step
            = pyRangeLen ((x :: xs).length - step.toNat) step + 1 := by
          unfold pyRangeLen
          rw [if_pos h, if_pos h]
          have heq : (x :: xs).length + step.toNat - 1
              = ((x :: xs).length - step.toNat + step.toNat - 1) + step.toNat := by
            omega
          rw [heq, Nat.add_div_right _ hb]
        unfold pySlices
        rw [hr, List.range_succ_eq_map, List.map_cons, Nat.zero_mul, List.drop_zero,
          List.map_map]
        have htail : ((List.range (pyRangeLen ((x :: xs).length - step.toNat) step)).map
            ((fun i => (((x :: xs).drop (i * step.toNat)).take step.toNat)) ∘ Nat.succ))
            = pySlices ((x :: xs).drop step.toNat) step := by
          unfold pySlices
          rw [List.length_drop]
          apply List.map_congr_left
          intro i hi
          simp only [Function.comp_apply]
          congr 1
          rw [List.drop_drop]
          congr 1
          rw [Nat.succ_mul]
          omega
        rw [htail, ih ((x :: xs).drop step.toNat)
          (by rw [List.length_drop]; simp only [List.length_cons] at hv ⊢; omega)]
        rw [← chunk_cons hb]

theorem pySlices_eq_chunk_all {α : Type} (values : List α) {step : Int} (h : 0 < step) :
    pySlices values step = chunk step.toNat values :=
  pySlices_eq_chunk h values.length values le_rfl

theorem pySlices_flatten {α : Type} (values : List α) {step : Int} (h : 0 < step) :
    (pySlices values step).flatten = values := by
  rw [pySlices_eq_chunk_all values h]
  exact chunk_flatten (by omega) values.length values le_rfl

theorem pySlices_flatten_length_le {α : Type} (values : List α) (step : Int) :
    (pySlices values step).flatten.length ≤ values.length := by
  by_cases h : 0 < step
  · rw [pySlices_flatten values h]
  · rw [pySlices_nonpos values step h]
    simp

/-! ## Batch loop lemmas -/

theorem foldl_batches {α ε : Type} (p : List α → Bool) (f : List α → List ε) :
    ∀ (l : List (List α)) (init : List (List ε)),
      l.foldl (fun errors batch => if p batch = true then errors else errors ++ [f batch]) init
        = init ++ (l.filter (fun b => !p b)).map f := by
  intro l
  induction l with
  | nil => intro init; simp
  | cons b bs ih =>
    intro init
    rw [List.foldl_cons]
    by_cases hp : p b = true
    · simp [hp, List.filter_cons, ih]
    · have hp' : p b = false := by simpa using hp
      simp [hp', List.filter_cons, ih, List.append_assoc]

theorem runBatches_eq {α ε : Type} (env : InsertEnv α ε) (values : List α) (bs : Int) :
    runBatches env values bs
      = ((pySlices values bs).filter (fun b => !env.batchOk b)).map
          (fun b => stepThroughBatch env.rowError b) := by
  unfold runBatches
  rw [foldl_batches]
  simp

theorem stepThroughBatch_eq_filterMap {α ε : Type} (r : α → Option ε) :
    ∀ l : List α, stepThroughBatch r l = l.filterMap r := by
  intro l
  induction l with
  | nil => rfl
  | cons v rest ih =>
    cases hr : r v <;> simp [stepThroughBatch, List.filterMap_cons, hr, ih]

theorem flatten_map_stepThrough {α ε : Type} (r : α → Option ε) :
    ∀ L : List (List α),
      (L.map (fun b => stepThroughBatch r b)).flatten = L.flatten.filterMap r := by
  intro L
  induction L with
  | nil => rfl
  | cons b bs ih =>
    rw [List.map_cons, List.flatten_cons, List.flatten_cons, List.filterMap_append,
      stepThroughBatch_eq_filterMap, ih]

theorem filtered_flatten_length_le {α ε : Type} (r : α → Option ε) (p : List α → Bool) :
    ∀ L : List (List α),
      (((L.filter (fun b => !p b)).map (fun b => stepThroughBatch r b)).flatten).length
        ≤ L.flatten.length := by
  intro L
  induction L with
  | nil => simp
  | cons b bs ih =>
    rw [List.filter_cons]
    by_cases hp : p b = true
    · simp only [hp, Bool.not_true, List.flatten_cons, List.length_append]
      exact le_trans ih (Nat.le_add_left _ _)
    · have hp' : p b = false := by simpa using hp
      simp only [hp', Bool.not_false, if_true, List.map_cons, List.flatten_cons,
        List.length_append]
      have h1 : (stepThroughBatch r b).length ≤ b.length := by
        rw [stepThroughBatch_eq_filterMap]
        exact List.length_filterMap_le r b
      exact Nat.add_le_add h1 ih

/-! ## Unit parsing lemmas -/

theorem pyUpperChar_digit {c : Char} (h : pyIsDigit c = true) : pyUpperChar c = c := by
  unfold pyIsDigit at h
  unfold pyUpperChar
  rw [if_neg]
  simp only [Bool.and_eq_true, decide_eq_true_eq] at h ⊢
  omega

theorem pyUpper_digits {d : List Char} (h : d.all pyIsDigit = true) : pyUpper d = d := by
  unfold pyUpper
  have hall : ∀ c ∈ d, pyUpperChar c = id c := fun c hc =>
    pyUpperChar_digit (List.all_eq_true.mp h c hc)
  rw [List.map_congr_left hall, List.map_id]

theorem pyDigits_eq {d : List Char} (hne : d ≠ []) (h : d.all pyIsDigit = true) :
    pyDigits d = some (digitsVal d) := by
  cases d with
  | nil => exact absurd rfl hne
  | cons c cs => simp [pyDigits, h]

theorem pyInt_digits {d : List Char} (hne : d ≠ []) (h : d.all pyIsDigit = true) :
    pyInt d = some ((digitsVal d : Int)) := by
  cases d with
  | nil => exact absurd rfl hne
  | cons c cs =>
    have hc : pyIsDigit c = true := List.all_eq_true.mp h c (by simp)
    have hc1 : ¬ (c = '-') := fun he => absurd (he ▸ hc) (by decide)
    have hc2 : ¬ (c = '+') := fun he => absurd (he ▸ hc) (by decide)
    simp only [pyInt]
    rw [if_neg hc1, if_neg hc2, pyDigits_eq (by simp) h]
    rfl

theorem parse_suffix {d : List Char} (hne : d ≠ []) (hdig : d.all pyIsDigit = true)
    (c u : Char) (hu : pyUpperChar c = u) (hKMG : u = 'K' ∨ u = 'M' ∨ u = 'G') :
    parseClientPacketChars (d ++ [c])
      = some ((digitsVal d : Int) * (10 : Int) ^ unitExp u) := by
  have hupper : pyUpper (d ++ [c]) = d ++ [u] := by
    unfold pyUpper
    rw [List.map_append]
    congr 1
    · exact pyUpper_digits hdig
    · simp [hu]
  simp only [parseClientPacketChars, hupper, List.getLast?_concat, List.dropLast_concat]
  rw [if_pos hKMG, pyInt_digits hne hdig]
  rfl

theorem parse_plain {d : List Char} (hne : d ≠ []) (hdig : d.all pyIsDigit = true) :
    parseClientPacketChars d = some ((digitsVal d : Int)) := by
  have hupper : pyUpper d = d := pyUpper_digits hdig
  obtain ⟨c, hc⟩ : ∃ c, d.getLast? = some c := by
    cases hg : d.getLast? with
    | none => exact absurd (List.getLast?_eq_none_iff.mp hg) hne
    | some c => exact ⟨c, rfl⟩
  have hcd : pyIsDigit c = true :=
    List.all_eq_true.mp hdig c (List.mem_of_mem_getLast? (by simp [hc]))
  have hnotKMG : ¬ (c = 'K' ∨ c = 'M' ∨ c = 'G') := by
    rintro (h | h | h) <;> subst h <;> exact absurd hcd (by decide)
  simp only [parseClientPacketChars, hupper, hc]
  rw [if_neg hnotKMG, pyInt_digits hne hdig]

/-! ## Loader control-flow lemmas -/

theorem insert_many_config_error {α ε : Type} (env : InsertEnv α ε) (values : List α)
    (e : PyError) (he : maxAllowedPacket env = .error e) :
    insert_many env values = .error e := by
  unfold insert_many
  rw [he]

theorem insert_many_ok_intro {α ε : Type} {env : InsertEnv α ε} {values : List α} {m : Int}
    (hm : maxAllowedPacket env = .ok m)
    (h0 : ¬ m = 0) (h1 : ¬ packetIterations env.packetSize m + 1 = 0)
    (h2 : ¬ computedBatchSize values.length env.packetSize m = 0) :
    insert_many env values
      = .ok (runBatches env values (computedBatchSize values.length env.packetSize m)) := by
  unfold insert_many
  rw [hm]
  simp only [if_neg h0, if_neg h1, if_neg h2]

theorem insert_many_m_zero {α ε : Type} {env : InsertEnv α ε} (values : List α) {m : Int}
    (hm : maxAllowedPacket env = .ok m) (h0 : m = 0) :
    insert_many env values = .error .zeroDivision := by
  unfold insert_many
  rw [hm]
  simp only [if_pos h0]

theorem insert_many_iter_zero {α ε : Type} {env : InsertEnv α ε} (values : List α) {m : Int}
    (hm : maxAllowedPacket env = .ok m) (h0 : ¬ m = 0)
    (h1 : packetIterations env.packetSize m + 1 = 0) :
    insert_many env values = .error .zeroDivision := by
  unfold insert_many
  rw [hm]
  simp only [if_neg h0, if_pos h1]

theorem insert_many_bs_zero {α ε : Type} {env : InsertEnv α ε} (values : List α) {m : Int}
    (hm : maxAllowedPacket env = .ok m) (h0 : ¬ m = 0)
    (h1 : ¬ packetIterations env.packetSize m + 1 = 0)
    (h2 : computedBatchSize values.length env.packetSize m = 0) :
    insert_many env values = .error .xrangeZeroStep := by
  unfold insert_many
  rw [hm]
  simp only [if_neg h0, if_neg h1, if_pos h2]

theorem insert_many_ok_elim {α ε : Type} {env : InsertEnv α ε} {values : List α}
    {es : List (List ε)} {m : Int}
    (hm : maxAllowedPacket env = .ok m)
    (h : insert_many env values = .ok es) :
    ¬ computedBatchSize values.length env.packetSize m = 0 ∧
      es = runBatches env values (computedBatchSize values.length env.packetSize m) := by
  by_cases h0 : m = 0
  · rw [insert_many_m_zero values hm h0] at h
    cases h
  · by_cases h1 : packetIterations env.packetSize m + 1 = 0
    · rw [insert_many_iter_zero values hm h0 h1] at h
      cases h
    · by_cases h2 : computedBatchSize values.length env.packetSize m = 0
      · rw [insert_many_bs_zero values hm h0 h1 h2] at h
        cases h
      · rw [insert_many_ok_intro hm h0 h1 h2] at h
        cases h
        exact ⟨h2, rfl⟩

/-! ## Claims about the batch loader -/

/-- C1: the claim states that whenever floor(totalRows / (packetsRequired + 1))
is zero, the batch size collapses to totalRows so that a single batch holding
all rows is attempted. The code contains no such collapse: with healthy
1000-byte limits and a 50-byte statement, a single-row load computes
candidate batch size floor(1 / 2) = 0 and `insert_many` raises the xrange
step-zero ValueError instead of attempting any batch. -/
theorem claim_C1 : insert_many envC1 [0] = Except.error PyError.xrangeZeroStep := rfl

/-- C2 counterexample: at `envC2` with rows [1, 2, 3, 4] and batch size 2,
the first batch [1, 2] fails as a whole and both of its rows fail
individually with exceptions 101 and 102, yet the returned value is the
one-element list [[101, 102]]: a list of per-batch lists of bare
exceptions, not a flat list holding exactly one row-value-carrying
RowInsertError per failing row (which would have length 2). -/
theorem claim_C2_counterexample :
    insert_many envC2 [1, 2, 3, 4] = Except.ok [[101, 102]]
    ∧ (insert_many envC2 [1, 2, 3, 4]).map List.length = Except.ok 1
    ∧ envC2.rowError 1 = some 101
    ∧ envC2.rowError 2 = some 102 :=
  ⟨rfl, rfl, rfl, rfl⟩

/-- C2 (amended): once batch parameters are determined, `insert_many`
returns normally — row-level insert failures never raise; the result is
one per-batch error list for exactly each batch whose bulk insert failed,
in order; flattened, it holds exactly one exception (the originating
failure, without the row value) per row of a failed batch that also fails
individually, hence at most N exceptions for N rows; the result is empty
iff every bulk batch insert succeeded; individual failures abort neither
the batch nor the run. -/
theorem claim_C2 {α ε : Type} (env : InsertEnv α ε) (values : List α)
    (es : List (List ε)) (m : Int)
    (hm : maxAllowedPacket env = Except.ok m)
    (h : insert_many env values = Except.ok es) :
    es = ((pySlices values (computedBatchSize values.length env.packetSize m)).filter
            (fun b => !env.batchOk b)).map (fun b => stepThroughBatch env.rowError b)
    ∧ es.flatten = ((pySlices values (computedBatchSize values.length env.packetSize m)).filter
            (fun b => !env.batchOk b)).flatten.filterMap env.rowError
    ∧ es.flatten.length ≤ values.length
    ∧ (es = [] ↔ ∀ b ∈ pySlices values (computedBatchSize values.length env.packetSize m),
        env.batchOk b = true) := by
  obtain ⟨hbs, hes⟩ := insert_many_ok_elim hm h
  subst hes
  refine ⟨runBatches_eq env values _, ?_, ?_, ?_⟩
  · rw [runBatches_eq]
    exact flatten_map_stepThrough env.rowError _
  · rw [runBatches_eq]
    exact le_trans (filtered_flatten_length_le env.rowError env.batchOk _)
      (pySlices_flatten_length_le values _)
  · rw [runBatches_eq]
    constructor
    · intro hnil
      intro b hb
      have hfil := List.map_eq_nil_iff.mp hnil
      have := List.filter_eq_nil_iff.mp hfil b hb
      simpa using this
    · intro hall
      have hfil : (pySlices values (computedBatchSize values.length env.packetSize m)).filter
          (fun b => !env.batchOk b) = [] :=
        List.filter_eq_nil_iff.mpr (fun b hb => by simp [hall b hb])
      rw [hfil]
      rfl

/-- Witness for the amended C2 at envC2: the flattened error count of the
returned per-batch lists is bounded by the number of rows. -/
theorem claim_C2_witness :
    ([[(101 : Nat), 102]] : List (List Nat)).flatten.length
      ≤ ([1, 2, 3, 4] : List Nat).length := by
  have h := claim_C2 envC2 [1, 2, 3, 4] [[101, 102]] 1000 rfl rfl
  exact h.2.2.1

/-- C3: with a positive effective limit and a positive candidate batch
size, the loader follows the specified algorithm: packetsRequired is the
ceiling of estimatedSize over effectiveLimit, the candidate batch size is
the floor of totalRows over (packetsRequired + 1), the loader then runs
exactly the consecutive slices of that size, every slice except possibly
the last has exactly that length, no slice is longer or empty, and their
concatenation in order is the original row sequence. -/
theorem claim_C3 {α ε : Type} (env : InsertEnv α ε) (values : List α) (m : Int)
    (hm : maxAllowedPacket env = Except.ok m) (hmpos : 0 < m)
    (hbs : 0 < computedBatchSize values.length env.packetSize m) :
    packetIterations (env.packetSize : Int) m
        = (((env.packetSize + m.toNat - 1) / m.toNat : Nat) : Int)
    ∧ computedBatchSize values.length env.packetSize m
        = ((values.length / ((env.packetSize + m.toNat - 1) / m.toNat + 1) : Nat) : Int)
    ∧ insert_many env values
        = Except.ok (runBatches env values (computedBatchSize values.length env.packetSize m))
    ∧ (pySlices values (computedBatchSize values.length env.packetSize m)).flatten = values
    ∧ (∀ b ∈ (pySlices values (computedBatchSize values.length env.packetSize m)).dropLast,
        b.length = (computedBatchSize values.length env.packetSize m).toNat)
    ∧ (∀ b ∈ pySlices values (computedBatchSize values.length env.packetSize m),
        0 < b.length ∧ b.length ≤ (computedBatchSize values.length env.packetSize m).toNat) := by
  have hmn : m = ((m.toNat : Nat) : Int) := (Int.toNat_of_nonneg (le_of_lt hmpos)).symm
  have hmnpos : 0 < m.toNat := by omega
  have hpi : packetIterations (env.packetSize : Int) m
      = (((env.packetSize + m.toNat - 1) / m.toNat : Nat) : Int) := by
    conv_lhs => rw [hmn]
    exact packetIterations_eq_ceil _ _ hmnpos
  have hcb : computedBatchSize values.length env.packetSize m
      = ((values.length / ((env.packetSize + m.toNat - 1) / m.toNat + 1) : Nat) : Int) := by
    conv_lhs => rw [hmn]
    exact computedBatchSize_natCast _ _ _ hmnpos
  have hiter : ¬ packetIterations (env.packetSize : Int) m + 1 = 0 := by
    rw [hpi]
    have hnn : (0 : Int) ≤ (((env.packetSize + m.toNat - 1) / m.toNat : Nat) : Int) :=
      Int.natCast_nonneg _
    omega
  refine ⟨hpi, hcb, ?_, ?_, ?_, ?_⟩
  · exact insert_many_ok_intro hm (ne_of_gt hmpos) hiter (by omega)
  · exact pySlices_flatten values hbs
  · intro b hb
    rw [pySlices_eq_chunk_all values hbs] at hb
    exact chunk_dropLast_length (by omega) values.length values le_rfl b hb
  · intro b hb
    rw [pySlices_eq_chunk_all values hbs] at hb
    exact chunk_mem_length (by omega) values.length values le_rfl b hb

/-- Witness for C3: at envC3w (limits 1000, statement size 1000) with four
rows, the computed batch size is positive and the slices concatenate back
to the original sequence. -/
theorem claim_C3_witness :
    insert_many envC3w [1, 2, 3, 4]
      = Except.ok (runBatches envC3w [1, 2, 3, 4]
          (computedBatchSize ([1, 2, 3, 4] : List Nat).length envC3w.packetSize 1000))
    ∧ (pySlices ([1, 2, 3, 4] : List Nat)
        (computedBatchSize ([1, 2, 3, 4] : List Nat).length envC3w.packetSize 1000)).flatten
      = [1, 2, 3, 4] := by
  have h := claim_C3 envC3w [1, 2, 3, 4] 1000 rfl (by decide) (by decide)
  exact ⟨h.2.2.1, h.2.2.2.1⟩

/-- C4: the claim states an empty input sequence succeeds trivially with
zero batches and an empty error list. In the code an empty input computes
batch size floor(0 / (packetsRequired + 1)) = 0 and `insert_many` raises
the xrange step-zero ValueError instead of returning an empty list. -/
theorem claim_C4 : insert_many envC4 ([] : List Nat) = Except.error PyError.xrangeZeroStep := rfl

/-- C5: the configuration phase of the loader returns min(clientLimit,
serverLimit) whenever the server variable row is present and int-parses,
the settings attribute exists, and the client option reads and parses;
whichever of these reads fails first turns into the matching raised error;
and any configuration error makes `insert_many` raise that error without
consulting the insert outcome oracles at all — no insert is attempted. -/
theorem claim_C5 {α ε : Type} (env : InsertEnv α ε) :
    (∀ sv s cv c,
        pyDictGet env.serverVariablesRaw "max_allowed_packet" = some sv →
        pyInt sv.data = some s →
        env.hasClientConfigFile = true →
        env.clientConfigValue = some cv →
        parseClientPacketChars cv.data = some c →
        maxAllowedPacket env = Except.ok (min c s))
    ∧ (pyDictGet env.serverVariablesRaw "max_allowed_packet" = none →
        maxAllowedPacket env = Except.error PyError.serverPacketUnavailable)
    ∧ (∀ sv s, pyDictGet env.serverVariablesRaw "max_allowed_packet" = some sv →
        pyInt sv.data = some s → env.hasClientConfigFile = false →
        maxAllowedPacket env = Except.error PyError.clientConfigFileMissing)
    ∧ (∀ sv s, pyDictGet env.serverVariablesRaw "max_allowed_packet" = some sv →
        pyInt sv.data = some s → env.hasClientConfigFile = true →
        env.clientConfigValue = none →
        maxAllowedPacket env = Except.error PyError.clientConfigUnreadable)
    ∧ (∀ (e : PyError) (values : List α) (bOk : List α → Bool) (rErr : α → Option ε),
        maxAllowedPacket env = Except.error e →
        insert_many { env with batchOk := bOk, rowError := rErr } values
          = Except.error e) := by
  refine ⟨?_, ?_, ?_, ?_, ?_⟩
  · intro sv s cv c h1 h2 h3 h4 h5
    simp only [maxAllowedPacket, h1, h2, h3, h4, h5, if_true]
  · intro h1
    simp only [maxAllowedPacket, h1]
  · intro sv s h1 h2 h3
    simp only [maxAllowedPacket, h1, h2, h3, Bool.false_eq_true, if_false]
  · intro sv s h1 h2 h3 h4
    simp only [maxAllowedPacket, h1, h2, h3, h4, if_true]
  · intro e values bOk rErr he
    have hsame : maxAllowedPacket { env with batchOk := bOk, rowError := rErr }
        = maxAllowedPacket env := rfl
    exact insert_many_config_error _ values e (hsame.trans he)

/-- Witness for C5: with a server limit of 2000 and a client limit string
of 1M, the effective packet limit is 2000. -/
theorem claim_C5_witness : maxAllowedPacket envC5w = Except.ok 2000 := by
  have h := (claim_C5 envC5w).1 "2000" 2000 "1M" 1000000 rfl (by decide) rfl rfl (by decide)
  exact h.trans (congrArg Except.ok (by decide))

/-- C6: client packet-size parsing is base-1000 and case-insensitive over
the K, M, G suffixes: for every non-empty digit string d, d followed by K
or k parses to d times 10^3, by M or m to d times 10^6, by G or g to
d times 10^9, and a suffix-free digit string parses as the plain
integer. -/
theorem claim_C6 (d : String) (hne : d.data ≠ []) (hdig : d.data.all pyIsDigit = true) :
    parseClientPacket (d ++ "K") = some ((digitsVal d.data : Int) * 1000)
    ∧ parseClientPacket (d ++ "k") = some ((digitsVal d.data : Int) * 1000)
    ∧ parseClientPacket (d ++ "M") = some ((digitsVal d.data : Int) * 1000000)
    ∧ parseClientPacket (d ++ "m") = some ((digitsVal d.data : Int) * 1000000)
    ∧ parseClientPacket (d ++ "G") = some ((digitsVal d.data : Int) * 1000000000)
    ∧ parseClientPacket (d ++ "g") = some ((digitsVal d.data : Int) * 1000000000)
    ∧ parseClientPacket d = some ((digitsVal d.data : Int)) := by
  have hK := parse_suffix hne hdig 'K' 'K' (by decide) (by decide)
  have hk := parse_suffix hne hdig 'k' 'K' (by decide) (by decide)
  have hM := parse_suffix hne hdig 'M' 'M' (by decide) (by decide)
  have hm2 := parse_suffix hne hdig 'm' 'M' (by decide) (by decide)
  have hG := parse_suffix hne hdig 'G' 'G' (by decide) (by decide)
  have hg2 := parse_suffix hne hdig 'g' 'G' (by decide) (by decide)
  have hp := parse_plain hne hdig
  have eK : ((10 : Int) ^ unitExp 'K') = 1000 := by decide
  have eM : ((10 : Int) ^ unitExp 'M') = 1000000 := by decide
  have eG : ((10 : Int) ^ unitExp 'G') = 1000000000 := by decide
  exact ⟨hK.trans (by rw [eK]), hk.trans (by rw [eK]), hM.trans (by rw [eM]),
    hm2.trans (by rw [eM]), hG.trans (by rw [eG]), hg2.trans (by rw [eG]), hp⟩

/-- Witness for C6 at the concrete strings named by the specification. -/
theorem claim_C6_witness :
    parseClientPacket "16M" = some 16000000
    ∧ parseClientPacket "2G" = some 2000000000
    ∧ parseClientPacket "512" = some 512 := by
  refine ⟨?_, ?_, ?_⟩
  · exact ((claim_C6 "16" (by decide) (by decide)).2.2.1).trans (congrArg some (by decide))
  · exact ((claim_C6 "2" (by decide) (by decide)).2.2.2.2.1).trans (congrArg some (by decide))
  · exact ((claim_C6 "512" (by decide) (by decide)).2.2.2.2.2.2).trans (congrArg some (by decide))

/-! ## Fetch lemmas -/

theorem fetchLoop_clean {ρ ε : Type} :
    ∀ events : List (SourceEvent ρ ε), (∀ ev ∈ events, ev.isRow = true) →
      Table.fetchLoop events
        = (events.filterMap SourceEvent.rowOf).map FetchAction.yield
            ++ [FetchAction.callFinish] := by
  intro events
  induction events with
  | nil => intro h; rfl
  | cons ev rest ih =>
    intro h
    cases ev with
    | row r =>
      rw [Table.fetchLoop, List.filterMap_cons]
      simp only [SourceEvent.rowOf, List.map_cons]
      rw [ih (fun e he => h e (by simp [he]))]
      rfl
    | raiseErr e =>
      have := h (.raiseErr e) (by simp)
      simp [SourceEvent.isRow] at this

theorem fetchLoop_raise {ρ ε : Type} :
    ∀ (pre : List (SourceEvent ρ ε)) (e : ε) (rest : List (SourceEvent ρ ε)),
      (∀ ev ∈ pre, ev.isRow = true) →
      Table.fetchLoop (pre ++ .raiseErr e :: rest)
        = (pre.filterMap SourceEvent.rowOf).map FetchAction.yield
            ++ [FetchAction.raiseExc e] := by
  intro pre
  induction pre with
  | nil => intro e rest h; rfl
  | cons ev pr ih =>
    intro e rest h
    cases ev with
    | row r =>
      rw [List.cons_append, Table.fetchLoop, List.filterMap_cons]
      simp only [SourceEvent.rowOf, List.map_cons]
      rw [ih e rest (fun x hx => h x (by simp [hx]))]
      rfl
    | raiseErr e2 =>
      have := h (.raiseErr e2) (by simp)
      simp [SourceEvent.isRow] at this

/-! ## Record access lemmas -/

theorem getitemLoop_error_iff {V : Type} (self : InstanceModel V) (columnName : String) :
    ∀ keys : List String,
      (getitemLoop self columnName keys = .error ()
        ↔ ∀ key ∈ keys, keyMatches self columnName key = false) := by
  intro keys
  induction keys with
  | nil => simp [getitemLoop]
  | cons key rest ih =>
    rw [getitemLoop]
    by_cases hmk : keyMatches self columnName key = true
    · rw [if_pos hmk]
      simp [hmk]
    · have hmk2 : keyMatches self columnName key = false := by simpa using hmk
      rw [if_neg hmk, ih]
      simp [List.forall_mem_cons, hmk2]

theorem getitemLoop_unassigned {V : Type} (self : InstanceModel V) (columnName : String) :
    ∀ keys : List String,
      (∃ key ∈ keys, keyMatches self columnName key = true) →
      (∀ key ∈ keys, keyMatches self columnName key = true → self.assigned key = none) →
      getitemLoop self columnName keys = .ok none := by
  intro keys
  induction keys with
  | nil => rintro ⟨k, hk, _⟩ _; simp at hk
  | cons key rest ih =>
    rintro ⟨k, hk, hmatch⟩ hnone
    rw [getitemLoop]
    by_cases hmk : keyMatches self columnName key = true
    · rw [if_pos hmk, hnone key (by simp) hmk]
    · rw [if_neg hmk]
      have hkr : k ∈ rest := by
        rcases List.mem_cons.mp hk with hk | hk
        · subst hk
          exact absurd hmatch hmk
        · exact hk
      exact ih ⟨k, hkr, hmatch⟩ (fun x hx hmx => hnone x (by simp [hx]) hmx)

/-! ## Column set lemmas -/

theorem updateMany_cons (cs : List (String × Column)) (d : String × Column)
    (ds : List (String × Column)) :
    updateMany cs (d :: ds) = updateMany (updateOne cs d) ds := rfl

theorem updateOne_eq (cs : List (String × Column)) (kv : String × Column) :
    updateOne cs kv
      = if hasKey cs kv.1 then replaceKey cs kv.1 kv.2 else cs ++ [kv] := rfl

theorem replaceKey_keys (cs : List (String × Column)) (k : String) (v : Column) :
    (replaceKey cs k v).map Prod.fst = cs.map Prod.fst := by
  unfold replaceKey
  rw [List.map_map]
  apply List.map_congr_left
  intro p hp
  simp only [Function.comp_apply]
  split <;> rfl

theorem hasKey_eq_keys (cs : List (String × Column)) (k : String) :
    hasKey cs k = (cs.map Prod.fst).any (fun x => x == k) := by
  induction cs with
  | nil => rfl
  | cons p ps ih =>
    unfold hasKey at ih ⊢
    rw [List.map_cons, List.any_cons, List.any_cons, ih]

theorem hasKey_replaceKey (cs : List (String × Column)) (k : String) (v : Column)
    (k2 : String) : hasKey (replaceKey cs k v) k2 = hasKey cs k2 := by
  rw [hasKey_eq_keys, hasKey_eq_keys, replaceKey_keys]

theorem hasKey_updateOne (cs : List (String × Column)) (d : String × Column)
    (k : String) (h : hasKey cs k = true) : hasKey (updateOne cs d) k = true := by
  rw [updateOne_eq]
  split
  · rw [hasKey_replaceKey]
    exact h
  · unfold hasKey at h ⊢
    rw [List.any_append]
    simp [h]

theorem hasKey_updateOne_self (cs : List (String × Column)) (k : String) (v : Column) :
    hasKey (updateOne cs (k, v)) k = true := by
  rw [updateOne_eq]
  split
  · rw [hasKey_replaceKey]
    rename_i h
    exact h
  · unfold hasKey
    rw [List.any_append]
    simp

theorem hasKey_updateMany (ds : List (String × Column)) :
    ∀ (cs : List (String × Column)) (k : String), hasKey cs k = true →
      hasKey (updateMany cs ds) k = true := by
  induction ds with
  | nil => intro cs k h; exact h
  | cons d ds ih =>
    intro cs k h
    rw [updateMany_cons]
    exact ih _ k (hasKey_updateOne cs d k h)

theorem updateOne_replaceKey_same (cs : List (String × Column)) (k : String)
    (v w : Column) (h : hasKey cs k = true) :
    updateOne (replaceKey cs k v) (k, w) = updateOne cs (k, w) := by
  rw [updateOne_eq, updateOne_eq]
  simp only [hasKey_replaceKey]
  rw [if_pos h, if_pos h]
  unfold replaceKey
  rw [List.map_map]
  apply List.map_congr_left
  intro p hp
  simp only [Function.comp_apply]
  by_cases hpk : (p.1 == k) = true
  · simp [hpk]
  · simp [hpk]

theorem updateOne_replaceKey_other (cs : List (String × Column)) (k : String)
    (v : Column) (d : String × Column) (hne : ¬ k = d.1) :
    updateOne (replaceKey cs k v) d = replaceKey (updateOne cs d) k v := by
  rw [updateOne_eq, updateOne_eq, hasKey_replaceKey]
  by_cases h : hasKey cs d.1 = true
  · rw [if_pos h, if_pos h]
    unfold replaceKey
    rw [List.map_map, List.map_map]
    apply List.map_congr_left
    intro p hp
    simp only [Function.comp_apply]
    by_cases h1 : (p.1 == k) = true
    · by_cases h2 : (p.1 == d.1) = true
      · exact absurd ((eq_of_beq h1).symm.trans (eq_of_beq h2)) hne
      · simp [h1, h2]
    · by_cases h2 : (p.1 == d.1) = true
      · simp [h1, h2]
      · simp [h1, h2]
  · rw [if_neg h, if_neg h]
    have hdk : (d.1 == k) = false := beq_eq_false_iff_ne.mpr (fun hh => hne hh.symm)
    unfold replaceKey
    rw [List.map_append]
    congr 1
    simp only [List.map_cons, List.map_nil]
    rw [if_neg (show ¬ ((d.1 == k) = true) by simp [hdk])]

theorem updateMany_replaceKey (k : String) (v : Column) :
    ∀ (ds : List (String × Column)) (cs : List (String × Column)),
      hasKey cs k = true → hasKey ds k = true →
      updateMany (replaceKey cs k v) ds = updateMany cs ds := by
  intro ds
  induction ds with
  | nil =>
    intro cs h1 h2
    simp [hasKey] at h2
  | cons d ds ih =>
    obtain ⟨d1, d2⟩ := d
    intro cs h1 h2
    rw [updateMany_cons, updateMany_cons]
    by_cases hd : (d1 == k) = true
    · have hdk : d1 = k := eq_of_beq hd
      subst hdk
      rw [updateOne_replaceKey_same cs d1 v d2 h1]
    · have hdf : (d1 == k) = false := by simpa using hd
      have hdsk : hasKey ds k = true := by
        unfold hasKey at h2 ⊢
        rw [List.any_cons] at h2
        rcases Bool.or_eq_true_iff.mp h2 with hl | hr
        · exact absurd hl (by simp [hdf])
        · exact hr
      have hne : ¬ k = (d1, d2).1 := by
        intro hh
        rw [beq_eq_false_iff_ne] at hdf
        exact hdf hh.symm
      rw [updateOne_replaceKey_other cs k v (d1, d2) hne]
      exact ih (updateOne cs (d1, d2)) (hasKey_updateOne cs (d1, d2) k h1) hdsk

theorem allAt_updateOne (cs : List (String × Column)) (k : String) (v : Column) :
    allAt (updateOne cs (k, v)) k v := by
  rw [updateOne_eq]
  by_cases hk : hasKey cs (k, v).1 = true
  · rw [if_pos hk]
    intro p hp hp1
    unfold replaceKey at hp
    obtain ⟨q, hq, hfq⟩ := List.mem_map.mp hp
    by_cases hqk : (q.1 == k) = true
    · rw [if_pos hqk] at hfq
      rw [← hfq]
    · rw [if_neg hqk] at hfq
      subst hfq
      exact absurd (beq_iff_eq.mpr hp1) hqk
  · rw [if_neg hk]
    intro p hp hp1
    rcases List.mem_append.mp hp with hin | hin
    · exfalso
      apply hk
      unfold hasKey
      rw [List.any_eq_true]
      exact ⟨p, hin, beq_iff_eq.mpr hp1⟩
    · simp at hin
      rw [hin]

theorem allAt_updateMany (k : String) (v : Column) :
    ∀ (ds : List (String × Column)) (cs : List (String × Column)),
      hasKey ds k = false → allAt cs k v → allAt (updateMany cs ds) k v := by
  intro ds
  induction ds with
  | nil => intro cs _ h; exact h
  | cons d ds ih =>
    obtain ⟨d1, d2⟩ := d
    intro cs hds hall
    rw [updateMany_cons]
    have hsplit : ((d1 == k) = false) ∧ hasKey ds k = false := by
      unfold hasKey at hds
      rw [List.any_cons] at hds
      constructor
      · exact (Bool.or_eq_false_iff.mp hds).1
      · exact (Bool.or_eq_false_iff.mp hds).2
    apply ih _ hsplit.2
    rw [updateOne_eq]
    by_cases hk : hasKey cs (d1, d2).1 = true
    · rw [if_pos hk]
      intro p hp hp1
      unfold replaceKey at hp
      obtain ⟨q, hq, hfq⟩ := List.mem_map.mp hp
      by_cases hqd : (q.1 == d1) = true
      · rw [if_pos hqd] at hfq
        exfalso
        have : q.1 = k := by rw [← hfq] at hp1; exact hp1
        have hdk : d1 = k := (eq_of_beq hqd).symm.trans this
        rw [beq_eq_false_iff_ne] at hsplit
        exact hsplit.1 hdk
      · rw [if_neg hqd] at hfq
        subst hfq
        exact hall q hq hp1
    · rw [if_neg hk]
      intro p hp hp1
      rcases List.mem_append.mp hp with hin | hin
      · exact hall p hin hp1
      · simp at hin
        subst hin
        simp only at hp1
        rw [beq_eq_false_iff_ne] at hsplit
        exact absurd hp1 hsplit.1

theorem updateOne_allAt_self (cs : List (String × Column)) (k : String) (v : Column)
    (hk : hasKey cs k = true) (hall : allAt cs k v) :
    updateOne cs (k, v) = cs := by
  rw [updateOne_eq, if_pos hk]
  unfold replaceKey
  have hid : ∀ p ∈ cs, (if p.1 == k then (p.1, v) else p) = p := by
    intro p hp
    by_cases hpk : (p.1 == k) = true
    · rw [if_pos hpk]
      have h2 : p.2 = v := hall p hp (eq_of_beq hpk)
      rw [← h2]
    · rw [if_neg hpk]
  rw [List.map_congr_left hid]
  exact List.map_id' cs

theorem updateMany_idem :
    ∀ (ds : List (String × Column)) (cs : List (String × Column)),
      updateMany (updateMany cs ds) ds = updateMany cs ds := by
  intro ds
  induction ds with
  | nil => intro cs; rfl
  | cons d ds ih =>
    obtain ⟨d1, d2⟩ := d
    intro cs
    rw [updateMany_cons, updateMany_cons]
    have hkC1 : hasKey (updateOne cs (d1, d2)) d1 = true := hasKey_updateOne_self cs d1 d2
    have hkY : hasKey (updateMany (updateOne cs (d1, d2)) ds) d1 = true :=
      hasKey_updateMany ds _ d1 hkC1
    by_cases hd : hasKey ds d1 = true
    · have h1 : updateOne (updateMany (updateOne cs (d1, d2)) ds) (d1, d2)
          = replaceKey (updateMany (updateOne cs (d1, d2)) ds) d1 d2 := by
        rw [updateOne_eq, if_pos hkY]
      rw [h1, updateMany_replaceKey d1 d2 ds _ hkY hd, ih (updateOne cs (d1, d2))]
    · have hdf : hasKey ds d1 = false := by simpa using hd
      have hallY : allAt (updateMany (updateOne cs (d1, d2)) ds) d1 d2 :=
        allAt_updateMany d1 d2 ds _ hdf (allAt_updateOne cs d1 d2)
      rw [updateOne_allAt_self _ d1 d2 hkY hallY, ih (updateOne cs (d1, d2))]

theorem lookup_replaceKey_self :
    ∀ (cs : List (String × Column)) (k : String) (v : Column), hasKey cs k = true →
      (replaceKey cs k v).lookup k = some v := by
  intro cs
  induction cs with
  | nil => intro k v h; simp [hasKey] at h
  | cons p ps ih =>
    obtain ⟨p1, p2⟩ := p
    intro k v h
    unfold replaceKey
    rw [List.map_cons]
    by_cases hpk : (p1 == k) = true
    · simp only [hpk, if_true]
      have he : p1 = k := eq_of_beq hpk
      subst he
      simp only [List.lookup, beq_self_eq_true]
    · have hpf : (p1 == k) = false := by simpa using hpk
      simp only [hpf, Bool.false_eq_true, if_false]
      have h2 : hasKey ps k = true := by
        unfold hasKey at h ⊢
        rw [List.any_cons] at h
        rcases Bool.or_eq_true_iff.mp h with hl | hr
        · exact absurd hl (by simp [hpf])
        · exact hr
      have hkp : (k == p1) = false := by
        rw [beq_eq_false_iff_ne]
        intro hh
        rw [beq_eq_false_iff_ne] at hpf
        exact hpf hh.symm
      simp only [List.lookup, hkp]
      exact ih k v h2

theorem lookup_not_hasKey :
    ∀ (cs : List (String × Column)) (k : String), hasKey cs k = false →
      cs.lookup k = none := by
  intro cs
  induction cs with
  | nil => intro k h; rfl
  | cons p ps ih =>
    obtain ⟨p1, p2⟩ := p
    intro k h
    unfold hasKey at h
    rw [List.any_cons] at h
    have h1 : (p1 == k) = false := (Bool.or_eq_false_iff.mp h).1
    have h2 : hasKey ps k = false := (Bool.or_eq_false_iff.mp h).2
    have hkp : (k == p1) = false := by
      rw [beq_eq_false_iff_ne]
      intro hh
      rw [beq_eq_false_iff_ne] at h1
      exact h1 hh.symm
    simp only [List.lookup, hkp]
    exact ih k h2

theorem lookup_updateOne_self (cs : List (String × Column)) (k : String) (v : Column) :
    (updateOne cs (k, v)).lookup k = some v := by
  rw [updateOne_eq]
  by_cases hk : hasKey cs (k, v).1 = true
  · rw [if_pos hk]
    exact lookup_replaceKey_self cs k v hk
  · rw [if_neg hk]
    rw [List.lookup_append]
    have hn : cs.lookup k = none := lookup_not_hasKey cs k (by simpa using hk)
    rw [hn]
    simp only [List.lookup, beq_self_eq_true, Option.or]

theorem lookup_replaceKey_other :
    ∀ (cs : List (String × Column)) (k k2 : String) (v : Column), ¬ k2 = k →
      (replaceKey cs k v).lookup k2 = cs.lookup k2 := by
  intro cs
  induction cs with
  | nil => intro k k2 v h; rfl
  | cons p ps ih =>
    obtain ⟨p1, p2⟩ := p
    intro k k2 v hne
    unfold replaceKey
    rw [List.map_cons]
    by_cases hpk : (p1 == k) = true
    · simp only [hpk, if_true]
      have he : p1 = k := eq_of_beq hpk
      subst he
      have hk2 : (k2 == p1) = false := beq_eq_false_iff_ne.mpr hne
      simp only [List.lookup, hk2]
      exact ih p1 k2 v hne
    · have hpf : (p1 == k) = false := by simpa using hpk
      simp only [hpf, Bool.false_eq_true, if_false]
      by_cases hk2 : (k2 == p1) = true
      · simp only [List.lookup, hk2]
      · have hk2f : (k2 == p1) = false := by simpa using hk2
        simp only [List.lookup, hk2f]
        exact ih k k2 v hne

theorem lookup_updateOne_other (cs : List (String × Column)) (k k2 : String)
    (v : Column) (hne : ¬ k2 = k) :
    (updateOne cs (k, v)).lookup k2 = cs.lookup k2 := by
  rw [updateOne_eq]
  by_cases hk : hasKey cs (k, v).1 = true
  · rw [if_pos hk]
    exact lookup_replaceKey_other cs k k2 v hne
  · rw [if_neg hk]
    rw [List.lookup_append]
    have hk2 : (k2 == k) = false := beq_eq_false_iff_ne.mpr hne
    have hnil : List.lookup k2 [(k, v)] = none := by simp only [List.lookup, hk2]
    rw [hnil]
    cases cs.lookup k2 <;> rfl

theorem updateOne_keys_of_hasKey (cs : List (String × Column)) (k : String) (v : Column)
    (hk : hasKey cs k = true) :
    (updateOne cs (k, v)).map Prod.fst = cs.map Prod.fst := by
  rw [updateOne_eq, if_pos hk]
  exact replaceKey_keys cs k v

theorem updateOne_append_of_new (cs : List (String × Column)) (kv : String × Column)
    (hnew : ∀ p ∈ cs, ¬ p.1 = kv.1) :
    updateOne cs kv = cs ++ [kv] := by
  rw [updateOne_eq]
  have hk : hasKey cs kv.1 = false := by
    unfold hasKey
    rw [← Bool.not_eq_true, List.any_eq_true]
    rintro ⟨p, hp, hbeq⟩
    exact hnew p hp (eq_of_beq hbeq)
  rw [hk]
  simp

theorem foldl_updateMany_flatten :
    ∀ (bases : List (List (String × Column))) (cs : List (String × Column)),
      bases.foldl updateMany cs = updateMany cs bases.flatten := by
  intro bases
  induction bases with
  | nil => intro cs; rfl
  | cons b bs ih =>
    intro cs
    rw [List.foldl_cons, ih, List.flatten_cons]
    unfold updateMany
    rw [List.foldl_append]

theorem resolveColumns_flat (bases : List (List (String × Column)))
    (own : List (String × Column)) :
    resolveColumns bases own = updateMany [] (bases.flatten ++ own) := by
  unfold resolveColumns
  rw [foldl_updateMany_flatten]
  unfold updateMany
  rw [List.foldl_append]

/-! ## Claims about the declarative table model -/

/-- C7: for a table with a configured source, one full consumption of the
fetch generator calls the finish hook iff the fetch completes without
error: when every source event is a yielded row, the trace is those
yields in order followed by exactly one finish call; when the source
raises after a prefix of rows, the trace is the prefix yields followed by
the re-raised exception and the finish hook is never called. -/
theorem claim_C7 {ρ ε : Type} [DecidableEq ρ] [DecidableEq ε]
    (events : List (SourceEvent ρ ε)) :
    ((∀ ev ∈ events, ev.isRow = true) →
      Table.fetch (some events)
          = (events.filterMap SourceEvent.rowOf).map FetchAction.yield
              ++ [FetchAction.callFinish]
        ∧ (Table.fetch (some events)).count (FetchAction.callFinish : FetchAction ρ ε) = 1)
    ∧ (∀ (pre : List (SourceEvent ρ ε)) (e : ε) (rest : List (SourceEvent ρ ε)),
        events = pre ++ .raiseErr e :: rest →
        (∀ ev ∈ pre, ev.isRow = true) →
        Table.fetch (some events)
            = (pre.filterMap SourceEvent.rowOf).map FetchAction.yield
                ++ [FetchAction.raiseExc e]
          ∧ (FetchAction.callFinish : FetchAction ρ ε) ∉ Table.fetch (some events)) := by
  constructor
  · intro hall
    have h : Table.fetch (some events)
        = (events.filterMap SourceEvent.rowOf).map FetchAction.yield
            ++ [FetchAction.callFinish] := fetchLoop_clean events hall
    refine ⟨h, ?_⟩
    rw [h, List.count_append]
    have h0 : ((events.filterMap SourceEvent.rowOf).map FetchAction.yield).count
        (FetchAction.callFinish : FetchAction ρ ε) = 0 := by
      rw [List.count_eq_zero]
      intro hmem
      obtain ⟨r, _, hr⟩ := List.mem_map.mp hmem
      cases hr
    rw [h0]
    simp [List.count_cons]
  · rintro pre e rest rfl hpre
    have h : Table.fetch (some (pre ++ .raiseErr e :: rest))
        = (pre.filterMap SourceEvent.rowOf).map FetchAction.yield
            ++ [FetchAction.raiseExc e] := fetchLoop_raise pre e rest hpre
    refine ⟨h, ?_⟩
    rw [h]
    intro hmem
    rcases List.mem_append.mp hmem with hm | hm
    · obtain ⟨r, _, hr⟩ := List.mem_map.mp hm
      cases hr
    · simp at hm

/-- Witness for C7: a clean two-row fetch yields both rows then calls
finish once; a fetch raising after one row yields that row, re-raises,
and never calls finish. -/
theorem claim_C7_witness :
    Table.fetch (some ([SourceEvent.row 1, SourceEvent.row 2] : List (SourceEvent Nat Nat)))
        = [FetchAction.yield 1, FetchAction.yield 2, FetchAction.callFinish]
    ∧ Table.fetch (some ([SourceEvent.row 1, SourceEvent.raiseErr 9] : List (SourceEvent Nat Nat)))
        = [FetchAction.yield 1, FetchAction.raiseExc 9]
    ∧ (FetchAction.callFinish : FetchAction Nat Nat)
        ∉ Table.fetch (some ([SourceEvent.row 1, SourceEvent.raiseErr 9] :
            List (SourceEvent Nat Nat))) := by
  refine ⟨?_, ?_, ?_⟩
  · exact ((claim_C7 ([SourceEvent.row 1, SourceEvent.row 2] :
      List (SourceEvent Nat Nat))).1 (by decide)).1.trans (by decide)
  · exact ((claim_C7 ([SourceEvent.row 1, SourceEvent.raiseErr 9] :
      List (SourceEvent Nat Nat))).2 [SourceEvent.row 1] 9 [] rfl (by decide)).1.trans (by decide)
  · exact ((claim_C7 ([SourceEvent.row 1, SourceEvent.raiseErr 9] :
      List (SourceEvent Nat Nat))).2 [SourceEvent.row 1] 9 [] rfl (by decide)).2

/-- C8: `Table.insert` issues no statement exactly when given zero
records, and an issued statement draws its column list and every value
tuple only from the non-auto-generated columns: the column list is the
escaped names of the non-auto columns, every listed column name comes
from a non-auto column, and every value tuple has exactly one rendered
value per non-auto column. -/
theorem claim_C8 {V : Type} (tablename : String) (cols : List Column)
    (esc : String → String) (dump : V → String) (instances : List (String → V)) :
    (instances = [] → Table.insert tablename cols esc dump instances = none)
    ∧ (Table.insert tablename cols esc dump instances = none → instances = [])
    ∧ (∀ stmt, Table.insert tablename cols esc dump instances = some stmt →
        stmt.columns = (cols.filter (fun c => !c.isAuto)).map (fun c => esc c.name)
        ∧ stmt.rows = instances.map (fun inst =>
            (cols.filter (fun c => !c.isAuto)).map (fun c => dump (inst c.name)))
        ∧ (∀ nm ∈ stmt.columns, ∃ c, c ∈ cols ∧ c.isAuto = false ∧ nm = esc c.name)
        ∧ (∀ row ∈ stmt.rows, row.length = (cols.filter (fun c => !c.isAuto)).length)) := by
  cases instances with
  | nil =>
    refine ⟨fun _ => rfl, fun _ => rfl, ?_⟩
    intro stmt h
    cases h
  | cons inst insts =>
    refine ⟨?_, ?_, ?_⟩
    · intro h
      cases h
    · intro h
      rw [show Table.insert tablename cols esc dump (inst :: insts)
          = some { table := esc tablename
                   columns := (cols.filter (fun c => !c.isAuto)).map (fun c => esc c.name)
                   rows := (inst :: insts).map (fun i =>
                     (cols.filter (fun c => !c.isAuto)).map (fun c => dump (i c.name))) }
        from rfl] at h
      cases h
    intro stmt h
    rw [show Table.insert tablename cols esc dump (inst :: insts)
        = some { table := esc tablename
                 columns := (cols.filter (fun c => !c.isAuto)).map (fun c => esc c.name)
                 rows := (inst :: insts).map (fun i =>
                   (cols.filter (fun c => !c.isAuto)).map (fun c => dump (i c.name))) }
      from rfl] at h
    injection h with h
    subst h
    refine ⟨rfl, rfl, ?_, ?_⟩
    · intro nm hnm
      obtain ⟨c, hc, hcn⟩ := List.mem_map.mp hnm
      obtain ⟨hcol, hauto⟩ := List.mem_filter.mp hc
      exact ⟨c, hcol, by simpa using hauto, hcn.symm⟩
    · intro row hrow
      obtain ⟨i, _, hi⟩ := List.mem_map.mp hrow
      rw [← hi, List.length_map]

/-- Witness for C8: over a schema with an auto-generated id and a plain
ring column, zero records issue no statement and one record issues a
statement whose column list is exactly the non-auto column names. -/
theorem claim_C8_witness :
    Table.insert "t" colsC8w id (fun _ : Nat => "v") ([] : List (String → Nat)) = none
    ∧ stmtC8w.columns = (colsC8w.filter (fun c => !c.isAuto)).map (fun c => id c.name) := by
  constructor
  · exact (claim_C8 "t" colsC8w id (fun _ : Nat => "v") []).1 rfl
  · exact ((claim_C8 "t" colsC8w id (fun _ : Nat => "v") [fun _ => 0]).2.2 stmtC8w rfl).1

/-- C9: schema resolution merges the ancestor declarations first-to-last
and applies the own declarations of the class last, which equals one
ordered fold over all declarations; an update step appends a genuinely
new name at the end of the order, while a re-declared name keeps the key
sequence (hence its position) unchanged, now binds the new Column, and
leaves every other name bound as before; re-applying the same
declaration run to an already resolved set changes nothing. -/
theorem claim_C9 (cs ds : List (String × Column)) (k : String) (v : Column)
    (bases : List (List (String × Column))) (own : List (String × Column)) :
    ((∀ p ∈ cs, ¬ p.1 = k) → updateOne cs (k, v) = cs ++ [(k, v)])
    ∧ (hasKey cs k = true →
        (updateOne cs (k, v)).map Prod.fst = cs.map Prod.fst)
    ∧ (updateOne cs (k, v)).lookup k = some v
    ∧ (∀ k2, ¬ k2 = k → (updateOne cs (k, v)).lookup k2 = cs.lookup k2)
    ∧ resolveColumns bases own = updateMany [] (bases.flatten ++ own)
    ∧ updateMany (updateMany cs ds) ds = updateMany cs ds := by
  refine ⟨?_, ?_, lookup_updateOne_self cs k v, ?_, resolveColumns_flat bases own,
    updateMany_idem ds cs⟩
  · intro h
    exact updateOne_append_of_new cs (k, v) h
  · intro h
    exact updateOne_keys_of_hasKey cs k v h
  · intro k2 h
    exact lookup_updateOne_other cs k k2 v h

/-- Witness for C9: a new name lands at the end; re-declaring b keeps the
order a, b and rebinds b. -/
theorem claim_C9_witness :
    updateOne [("a", colA)] ("b", colB) = [("a", colA), ("b", colB)]
    ∧ (updateOne [("a", colA), ("b", colB)] ("b", colB2)).map Prod.fst = ["a", "b"]
    ∧ (updateOne [("a", colA), ("b", colB)] ("b", colB2)).lookup "b" = some colB2 := by
  refine ⟨?_, ?_, ?_⟩
  · exact (claim_C9 [("a", colA)] [] "b" colB [] []).1 (by decide)
  · exact ((claim_C9 [("a", colA), ("b", colB)] [] "b" colB2 [] []).2.1 (by decide)).trans
      (by decide)
  · exact (claim_C9 [("a", colA), ("b", colB)] [] "b" colB2 [] []).2.2.1

/-- C10: on a record instance, `__getitem__` raises KeyError exactly for
the names that no public (non-underscore) class attribute declares as a
Column; and for a declared column name whose value was never assigned on
the instance, it returns Python None rather than the Column object or an
error. -/
theorem claim_C10 {V : Type} (self : InstanceModel V) (columnName : String) :
    (getitem self columnName = .error ()
      ↔ ∀ key ∈ self.attrKeys, keyMatches self columnName key = false)
    ∧ ((∃ key ∈ self.attrKeys, keyMatches self columnName key = true) →
       (∀ key ∈ self.attrKeys, keyMatches self columnName key = true →
          self.assigned key = none) →
       getitem self columnName = .ok none) :=
  ⟨getitemLoop_error_iff self columnName self.attrKeys,
    fun h1 h2 => getitemLoop_unassigned self columnName self.attrKeys h1 h2⟩

/-- Witness for C10: on an instance declaring an unassigned ring column,
reading ring gives None and reading an undeclared name raises
KeyError. -/
theorem claim_C10_witness :
    getitem selfC10w "ring" = .ok none
    ∧ getitem selfC10w "fellowship" = .error () := by
  constructor
  · exact (claim_C10 selfC10w "ring").2 (by decide) (by decide)
  · exact (claim_C10 selfC10w "fellowship").1.mpr (by decide)

end Pylytics
